import Mathlib

/-!
Verification development for the IBKR historical-data fetch script (main.py).

The script is embedded shallowly.  Pure fragments become Lean functions.  The
paginated fetch loop of fetch_contract_data becomes an explicit small-step
state machine whose ghost trace records, most recent event first, the
externally visible actions of one contract's run: API page requests, CSV
appends, the 1.1-second rate-limit sleep, and checkpoint persists.
Timestamps are modelled as integer seconds of broker-local time; the
strftime / strptime round-trip used for cursor strings is injective and
order-preserving, so cursors are carried as integers directly, with
Option.none standing for the empty string (meaning "now").
-/

/-! ## Calendar arithmetic (Python datetime on the proleptic Gregorian calendar) -/

/-- Leap-year test, as Python's datetime module. -/
def isLeap (y : Nat) : Bool := y % 4 == 0 && (y % 100 != 0 || y % 400 == 0)

/-- Number of days in month m of year y. -/
def daysInMonth (y m : Nat) : Nat :=
  if m = 2 then (if isLeap y then 29 else 28)
  else if m = 4 ∨ m = 6 ∨ m = 9 ∨ m = 11 then 30 else 31

/-- A calendar date as produced by datetime.strptime. -/
structure Ymd where
  y : Nat
  m : Nat
  d : Nat
deriving DecidableEq, Repr

/-- Days of year y that precede the first day of month m. -/
def daysBeforeMonth (y m : Nat) : Nat :=
  (List.range (m - 1)).foldl (fun a i => a + daysInMonth y (i + 1)) 0

/-- Day number of a calendar date (as Python's date.toordinal). -/
def toOrdinal (x : Ymd) : Nat :=
  365 * (x.y - 1) + (x.y - 1) / 4 + (x.y - 1) / 400 - (x.y - 1) / 100
    + daysBeforeMonth x.y x.m + x.d

/-- Seconds at local midnight of a calendar date. -/
def dateSec (x : Ymd) : Int := (toOrdinal x : Int) * 86400

/-! ## datetime.strptime(s, "%Y%m%d")

Python's strptime compiles the format to a regex: %Y is exactly four digits,
%m matches "1[0-2]|0[1-9]|[1-9]" and %d matches "3[01]|[12]\d|0[1-9]|[1-9]"
(the two-digit alternatives are tried first and the engine backtracks in
alternation order), the whole string must be consumed, and the matched day is
finally validated against the month by the datetime constructor.  Hence only
digit strings of length 6, 7 or 8 can parse, with the splits (m,d) digit
widths (1,1), then (2,1) before (1,2), then (2,2) respectively. -/

/-- Numeric value of a decimal digit character. -/
def digitVal (c : Char) : Nat := c.toNat - 48

/-- The two-digit alternatives of the %m regex: 10-12 or 01-09. -/
def m2pat (a b : Nat) : Bool := (a == 1 && b ≤ 2) || (a == 0 && 1 ≤ b)

/-- The one-digit alternative of the %m regex: 1-9. -/
def m1pat (a : Nat) : Bool := 1 ≤ a

/-- The two-digit alternatives of the %d regex: 30-31, 10-29 or 01-09. -/
def d2pat (a b : Nat) : Bool := (a == 3 && b ≤ 1) || a == 1 || a == 2 || (a == 0 && 1 ≤ b)

/-- The one-digit alternative of the %d regex: 1-9. -/
def d1pat (a : Nat) : Bool := 1 ≤ a

/-- The datetime constructor's validation of a regex-matched date. -/
def mkYmd (y m d : Nat) : Option Ymd :=
  if 1 ≤ y ∧ d ≤ daysInMonth y m then some ⟨y, m, d⟩ else none

/-- datetime.strptime(s, "%Y%m%d") as described above. -/
def strpYmd (s : String) : Option Ymd :=
  let cs := s.toList
  if cs.all Char.isDigit then
    match cs.map digitVal with
    | [y1, y2, y3, y4, a, b] =>
      let y := 1000 * y1 + 100 * y2 + 10 * y3 + y4
      if m1pat a && d1pat b then mkYmd y a b else none
    | [y1, y2, y3, y4, a, b, c] =>
      let y := 1000 * y1 + 100 * y2 + 10 * y3 + y4
      if m2pat a b && d1pat c then mkYmd y (10 * a + b) c
      else if m1pat a && d2pat b c then mkYmd y a (10 * b + c)
      else none
    | [y1, y2, y3, y4, a, b, c, d] =>
      let y := 1000 * y1 + 100 * y2 + 10 * y3 + y4
      if m2pat a b && d2pat c d then mkYmd y (10 * a + b) (10 * c + d) else none
    | _ => none
  else none

/-- The script's two-stage expiry parse: strptime(s, "%Y%m%d") first, and on
failure strptime(s ++ "01", "%Y%m%d") (the year-month branch). -/
def parseExpiry (s : String) : Option Ymd :=
  match strpYmd s with
  | some d => some d
  | none => strpYmd (s ++ "01")

/-! ## Contract enumerator (module-level filter loop, main.py lines 27-44) -/

/-- The fields of an enumerated contract that the script reads. -/
structure ContractDet where
  lastTradeDateOrContractMonth : String
  localSymbol : String
deriving DecidableEq, Repr

/-- two_years_ago = now - timedelta(days=730). -/
def twoYearsAgo (now : Int) : Int := now - 730 * 86400

/-- One pass of the filter loop body: parse the expiry (skipping the contract
on failure) and keep the contract when expiry_date >= two_years_ago. -/
def keepContract (now : Int) (c : ContractDet) : Bool :=
  match parseExpiry c.lastTradeDateOrContractMonth with
  | none => false
  | some d => decide (twoYearsAgo now ≤ dateSec d)

/-- valid_contracts built from the API's contract list. -/
def filterContracts (now : Int) (cs : List ContractDet) : List ContractDet :=
  cs.filter (keepContract now)

/-! ## Checkpoint store (fetch_log.json as an insertion-ordered mapping) -/

/-- dict.get on the loaded log. -/
def logGet (log : List (String × Int)) (k : String) : Option Int :=
  (log.find? (fun p => p.1 == k)).map (fun p => p.2)

/-- log[k] = v followed by json.dump of the whole mapping: replace the entry
in place when the key exists, otherwise append it. -/
def logSet (log : List (String × Int)) (k : String) (v : Int) : List (String × Int) :=
  if (log.find? (fun p => p.1 == k)).isSome then
    log.map (fun p => if p.1 == k then (k, v) else p)
  else log ++ [(k, v)]

/-- INIT of fetch_contract_data (main.py lines 68-86): restore end_dt from the
log; parse the expiry, skipping the contract (outer none) when it cannot be
parsed; for an expired contract with no stored cursor start at 23:59:59 of
the parsed expiry date; otherwise leave the cursor as stored or unset. -/
def initEndDt (log : List (String × Int)) (sym : String) (expiry : String)
    (now : Int) : Option (Option Int) :=
  match parseExpiry expiry with
  | none => none
  | some d =>
    match logGet log sym with
    | some c => some (some c)
    | none => if dateSec d < now then some (some (dateSec d + 86399)) else some none

/-! ## Bars and minimum timestamps -/

/-- One 1-minute bar row of a per-contract temp CSV. -/
structure Row where
  date : Int
  open_ : Int
  high : Int
  low : Int
  close : Int
  volume : Int
deriving DecidableEq, Repr

/-- Minimum of a list of integers (0 on the empty list, which is never used). -/
def listMin : List Int → Int
  | [] => 0
  | t :: ts => ts.foldl min t

/-- df['date'].min() on a page of bars. -/
def minDate (l : List Row) : Int := listMin (l.map Row.date)

/-! ## Retry loop (main.py lines 93-116)

`att k` is the outcome of the k-th attempt of one page request: some bars on
success, none when reqHistoricalData raises.  The loop makes at most
maxRetries attempts, sleeping 2 ^ retry seconds after a failed attempt that
is not the last.  The result records the bars (none when all attempts
failed), the backoff sleeps performed in order, and the attempts used. -/

structure RetryOut where
  result : Option (List Row)
  sleeps : List Nat
  used : Nat
deriving Repr

/-- The retry for-loop; fuel = maxRetries - retry is the number of remaining
iterations. -/
def retryGo (att : Nat → Option (List Row)) : Nat → Nat → List Nat → RetryOut
  | 0, r, sl => ⟨none, sl, r⟩
  | fuel + 1, r, sl =>
    match att r with
    | some bars => ⟨some bars, sl, r + 1⟩
    | none =>
      if fuel = 0 then ⟨none, sl, r + 1⟩
      else retryGo att fuel (r + 1) (sl ++ [2 ^ r])

/-- The retry loop with the script's max_retries = 3. -/
def retryRun (att : Nat → Option (List Row)) : RetryOut :=
  retryGo att 3 0 []

/-! ## The FETCHING state machine (main.py lines 91-150)

One micro-step per executed statement group, so that intermediate states
between the CSV append and the checkpoint persist are reachable states. -/

/-- Ghost trace events, recorded most recent first. -/
inductive Ev where
  | request : Option Int → Ev
  | append : List Row → Ev
  | sleep : Ev
  | persist : Int → Ev
deriving DecidableEq, Repr

/-- Position inside one iteration of the while-True loop. -/
inductive Phase where
  | atRequest : Phase
  | gotBars : List Row → Phase
  | filtered : List Row → Phase
  | appended : List Row → Phase
  | slept : List Row → Phase
  | done : Phase
  | failed : Phase
deriving DecidableEq, Repr

/-- The per-contract fetch state: the in-memory cursor end_dt (none = '' =
now), the bars appended so far to the contract's temp CSV, the persisted
checkpoint entry for this contract, the loop position, and the ghost trace. -/
structure FetchState where
  endDt : Option Int
  file : List Row
  cp : Option Int
  phase : Phase
  trace : List Ev
deriving Repr

/-- The environment of one contract's run: the API (attempt k of a page
request ending at e), and start_date = now - 730 days. -/
structure FetchCfg where
  attempts : Option Int → Nat → Option (List Row)
  startDate : Int

/-- One micro-step of the FETCHING loop:
atRequest: run the retry loop; all attempts failing abandons the contract
  (failed); an empty response ends the loop (done).
gotBars: df = df[df['date'] >= start_date]; empty leftover ends the loop.
filtered: df.to_csv(temp_file, mode='a', ...) appends the surviving bars.
appended: time.sleep(1.1), the rate-limit sleep.
slept: end_dt = df['date'].min() - 1 minute; log[sym] = end_dt persisted;
  stop when the minimum already reached start_date, else request again. -/
def fetchStep (cfg : FetchCfg) (s : FetchState) : FetchState :=
  match s.phase with
  | .atRequest =>
    let out := retryRun (cfg.attempts s.endDt)
    let s' := { s with trace := Ev.request s.endDt :: s.trace }
    match out.result with
    | none => { s' with phase := .failed }
    | some bars =>
      if bars.isEmpty then { s' with phase := .done }
      else { s' with phase := .gotBars bars }
  | .gotBars bars =>
    let kept := bars.filter (fun b => decide (cfg.startDate ≤ b.date))
    if kept.isEmpty then { s with phase := .done }
    else { s with phase := .filtered kept }
  | .filtered bars =>
    { s with file := s.file ++ bars, trace := Ev.append bars :: s.trace,
             phase := .appended bars }
  | .appended bars =>
    { s with trace := Ev.sleep :: s.trace, phase := .slept bars }
  | .slept bars =>
    let c := minDate bars - 60
    { s with endDt := some c, cp := some c, trace := Ev.persist c :: s.trace,
             phase := if minDate bars ≤ cfg.startDate then .done else .atRequest }
  | .done => s
  | .failed => s

/-- Iterated micro-steps. -/
def fetchRun (cfg : FetchCfg) (s : FetchState) : Nat → FetchState
  | 0 => s
  | n + 1 => fetchStep cfg (fetchRun cfg s n)

/-- Start of the while-True loop: cursor as INIT left it, the temp file and
persisted checkpoint entry as a previous run left them, empty trace. -/
def initState (cursor : Option Int) (file0 : List Row) (cp0 : Option Int) : FetchState :=
  { endDt := cursor, file := file0, cp := cp0, phase := .atRequest, trace := [] }

/-- Model assumption on the API: a page requested with a concrete end time e
only contains bars dated at or before e. -/
def ApiBounded (cfg : FetchCfg) : Prop :=
  ∀ e k bars, cfg.attempts (some e) k = some bars → ∀ b ∈ bars, b.date ≤ e

/-! ## Trace observations -/

/-- End times of the page requests issued so far, most recent first; requests
with an unset cursor (endDateTime = '') are not collected here. -/
def reqTimes (t : List Ev) : List Int :=
  t.filterMap (fun ev => match ev with
    | Ev.request (some e) => some e
    | _ => none)

/-- True when no request so far was issued with an unset end time. -/
def reqNoneFree (t : List Ev) : Bool :=
  t.all (fun ev => match ev with
    | Ev.request none => false
    | _ => true)

/-- The trace restricted to CSV appends and checkpoint persists. -/
def filterAP (t : List Ev) : List Ev :=
  t.filter (fun ev => match ev with
    | Ev.append _ => true
    | Ev.persist _ => true
    | _ => false)

/-- Checks (most recent first) that appends and persists alternate, each page
persisting exactly the minimum surviving timestamp minus one minute. -/
def apRev : List Ev → Bool
  | [] => true
  | Ev.persist c :: Ev.append bs :: rest => c == minDate bs - 60 && apRev rest
  | _ => false

/-- As apRev, additionally allowing the in-flight page whose append has not
been persisted yet. -/
def apRevTop (t : List Ev) : Bool :=
  match t with
  | Ev.append _ :: rest => apRev rest
  | _ => apRev t

/-- Completed iterations as the code performs them, most recent first: every
block is persist, sleep, append, request. -/
def revBlocks : List Ev → Bool
  | [] => true
  | Ev.persist _ :: Ev.sleep :: Ev.append _ :: Ev.request _ :: rest => revBlocks rest
  | _ => false

/-- Whole traces of the code: completed blocks under a possibly unfinished
current iteration. -/
def revSeq (t : List Ev) : Bool :=
  match t with
  | Ev.request _ :: rest => revBlocks rest
  | Ev.append _ :: Ev.request _ :: rest => revBlocks rest
  | Ev.sleep :: Ev.append _ :: Ev.request _ :: rest => revBlocks rest
  | _ => revBlocks t

/-- Completed iterations in the order the specification states them, most
recent first: every block is sleep, persist, append, request. -/
def specBlocks : List Ev → Bool
  | [] => true
  | Ev.sleep :: Ev.persist _ :: Ev.append _ :: Ev.request _ :: rest => specBlocks rest
  | _ => false

/-- Whole traces under the specification's step order, with a possibly
unfinished current iteration. -/
def specSeq (t : List Ev) : Bool :=
  match t with
  | Ev.request _ :: rest => specBlocks rest
  | Ev.append _ :: Ev.request _ :: rest => specBlocks rest
  | Ev.persist _ :: Ev.append _ :: Ev.request _ :: rest => specBlocks rest
  | _ => specBlocks t

/-! ## Per-contract driver (main.py lines 152-166) -/

/-- Terminal state of one contract's fetch. -/
inductive Outcome where
  | done : Outcome
  | failed : Outcome
deriving DecidableEq, Repr

/-- The sequential per-contract loop: every contract is processed, whatever
the outcome of the previous ones. -/
def processAll (f : ContractDet → Outcome) (cs : List ContractDet) :
    List (ContractDet × Outcome) :=
  cs.map (fun c => (c, f c))

/-! ## Merger Summarizer (main.py lines 168-204) -/

/-- A row of the combined table: a bar tagged with its contract column. -/
structure MRow where
  date : Int
  open_ : Int
  high : Int
  low : Int
  close : Int
  volume : Int
  contract : String
deriving DecidableEq, Repr

/-- df['contract'] = contract.localSymbol. -/
def tagRows (sym : String) (rs : List Row) : List MRow :=
  rs.map (fun r => ⟨r.date, r.open_, r.high, r.low, r.close, r.volume, sym⟩)

/-- The collection loop over valid contracts: a missing file (none) or an
empty one contributes nothing; a non-empty one is tagged and collected. -/
def collectData (files : List (String × Option (List Row))) : List (List MRow) :=
  files.filterMap (fun p => match p.2 with
    | none => none
    | some rs => if rs.isEmpty then none else some (tagRows p.1 rs))

/-- drop_duplicates(): keep the first occurrence of each exact row. -/
def dedupGo (seen : List MRow) : List MRow → List MRow
  | [] => []
  | r :: rs => if r ∈ seen then dedupGo seen rs else r :: dedupGo (r :: seen) rs

/-- drop_duplicates() over a whole table. -/
def dedupFirst (l : List MRow) : List MRow := dedupGo [] l

/-- sort_values('date') orders rows by the date column. -/
def byDate (a b : MRow) : Prop := a.date ≤ b.date

instance : DecidableRel byDate := fun a b => inferInstanceAs (Decidable (a.date ≤ b.date))

instance : IsTotal MRow byDate := ⟨fun a b => le_total a.date b.date⟩

instance : IsTrans MRow byDate := ⟨fun _ _ _ h1 h2 => le_trans h1 h2⟩

/-- result = pd.concat(all_data).drop_duplicates().sort_values('date'). -/
def mergeResult (files : List (String × Option (List Row))) : List MRow :=
  List.insertionSort byDate (dedupFirst (collectData files).flatten)

/-- The merge run at wall-clock time now: the timestamped output file name
and the combined table contents written into it. -/
def outputOf (files : List (String × Option (List Row))) (now : Int) :
    String × List MRow :=
  ("MES_1min_" ++ toString now ++ ".csv", mergeResult files)

/-! ## Concrete instances used to evaluate the model -/

/-- A bar at timestamp t with zeroed price and volume fields. -/
def rowAt (t : Int) : Row := ⟨t, 0, 0, 0, 0, 0⟩

/-- A three-row contract file with timestamps 1, 2, 3. -/
def fileA : List Row := [rowAt 1, rowAt 2, rowAt 3]

/-- A four-row contract file with timestamps 3, 4, 5, 6; the bar at
timestamp 3 is field-for-field identical to the one in fileA. -/
def fileB : List Row := [rowAt 3, rowAt 4, rowAt 5, rowAt 6]

/-- A two-page API used to exercise the fetch loop: the first page (cursor
unset, endDateTime = '') holds bars at 1060 and 1120 seconds, the page
ending at the then-persisted cursor 1000 holds one bar at 500 seconds, and
every later page is empty.  All requests succeed on the first attempt. -/
def exCfg : FetchCfg where
  attempts := fun e _ => match e with
    | none => some [rowAt 1060, rowAt 1120]
    | some c => if c = 1000 then some [rowAt 500] else some []
  startDate := 0

/-- An attempt sequence that fails twice, then succeeds. -/
def attEx : Nat → Option (List Row) := fun k => if k = 2 then some [rowAt 7] else none

/-- An API whose every attempt raises. -/
def failCfg : FetchCfg where
  attempts := fun _ _ => none
  startDate := 0

/-- An API that always answers with an empty page. -/
def emptyCfg : FetchCfg where
  attempts := fun _ _ => some []
  startDate := 0

/-- A loop state about to execute the checkpoint-persist statement group. -/
def c3s : FetchState :=
  { endDt := some 1000, file := [rowAt 500], cp := none,
    phase := Phase.slept [rowAt 500], trace := [] }

/-! ## Inductive invariants of the fetch state machine -/

/-- Invariant behind claim C4.  With the run started from a stored cursor c0,
the request end times issued so far (most recent first) are pairwise
strictly increasing in that order (each later request strictly earlier in
time), the chronologically first one is exactly c0, all are at most c0, and
the cursor in hand is always set and strictly below every end time already
used once a request happened. -/
def reqInv (c0 : Int) (s : FetchState) : Prop :=
  reqNoneFree s.trace = true ∧
  (reqTimes s.trace = [] → s.endDt = some c0 ∧ s.phase = Phase.atRequest) ∧
  (reqTimes s.trace ≠ [] → (reqTimes s.trace).getLast? = some c0) ∧
  List.Pairwise (fun x y => x < y) (reqTimes s.trace) ∧
  (∀ x ∈ reqTimes s.trace, x ≤ c0) ∧
  (match s.phase with
   | Phase.atRequest => ∃ e, s.endDt = some e ∧ (reqTimes s.trace = [] → e = c0) ∧
       ∀ x ∈ reqTimes s.trace, e < x
   | Phase.gotBars bars => ∃ e, s.endDt = some e ∧ (reqTimes s.trace).head? = some e ∧
       bars ≠ [] ∧ ∀ b ∈ bars, b.date ≤ e
   | Phase.filtered bars => ∃ e, s.endDt = some e ∧ (reqTimes s.trace).head? = some e ∧
       bars ≠ [] ∧ ∀ b ∈ bars, b.date ≤ e
   | Phase.appended bars => ∃ e, s.endDt = some e ∧ (reqTimes s.trace).head? = some e ∧
       bars ≠ [] ∧ ∀ b ∈ bars, b.date ≤ e
   | Phase.slept bars => ∃ e, s.endDt = some e ∧ (reqTimes s.trace).head? = some e ∧
       bars ≠ [] ∧ ∀ b ∈ bars, b.date ≤ e
   | Phase.done => True
   | Phase.failed => True)

/-- The part of the checkpoint invariant that holds at iteration borders:
when a checkpoint entry is persisted it equals the cursor in hand and is at
most the minimum timestamp in the contract file, and before the first
persist of a fresh contract the file is still empty. -/
def ckBase (s : FetchState) : Prop :=
  (∀ c, s.cp = some c → s.endDt = some c ∧ (s.file ≠ [] → c ≤ minDate s.file)) ∧
  (s.cp = none → s.file = [])

/-- Invariant behind claim C2: ckBase away from the append-to-persist window,
and inside that window enough to re-establish ckBase at the next persist. -/
def ckInv (s : FetchState) : Prop :=
  match s.phase with
  | Phase.atRequest => ckBase s
  | Phase.done => ckBase s
  | Phase.failed => ckBase s
  | Phase.gotBars bars => ckBase s ∧ bars ≠ [] ∧
      ∀ e, s.endDt = some e → ∀ b ∈ bars, b.date ≤ e
  | Phase.filtered bars => ckBase s ∧ bars ≠ [] ∧
      ∀ e, s.endDt = some e → ∀ b ∈ bars, b.date ≤ e
  | Phase.appended bars => bars ≠ [] ∧ s.file ≠ [] ∧ minDate bars - 60 ≤ minDate s.file
  | Phase.slept bars => bars ≠ [] ∧ s.file ≠ [] ∧ minDate bars - 60 ≤ minDate s.file

/-- Invariant behind claim C8: the trace shape at each loop position. -/
def orderInv (s : FetchState) : Prop :=
  match s.phase with
  | Phase.atRequest => revBlocks s.trace = true
  | Phase.gotBars _ => ∃ e t, s.trace = Ev.request e :: t ∧ revBlocks t = true
  | Phase.filtered _ => ∃ e t, s.trace = Ev.request e :: t ∧ revBlocks t = true
  | Phase.appended bars => ∃ e t, s.trace = Ev.append bars :: Ev.request e :: t ∧
      revBlocks t = true
  | Phase.slept bars => ∃ e t, s.trace = Ev.sleep :: Ev.append bars :: Ev.request e :: t ∧
      revBlocks t = true
  | Phase.done => revSeq s.trace = true
  | Phase.failed => revSeq s.trace = true

/-- Invariant behind claim C3: appends and persists alternate with the right
persisted values, the current page's append still unmatched while between
the CSV append and its persist. -/
def apInv (s : FetchState) : Prop :=
  match s.phase with
  | Phase.appended bars => ∃ t, filterAP s.trace = Ev.append bars :: t ∧ apRev t = true
  | Phase.slept bars => ∃ t, filterAP s.trace = Ev.append bars :: t ∧ apRev t = true
  | _ => apRev (filterAP s.trace) = true

/-! ## General lemmas: list minima -/

theorem foldl_min_le_init (l : List Int) (a : Int) : l.foldl min a ≤ a := by
  induction l generalizing a with
  | nil => simp
  | cons x xs ih => exact le_trans (ih (min a x)) (min_le_left a x)

theorem foldl_min_le_mem (l : List Int) (a x : Int) (hx : x ∈ l) : l.foldl min a ≤ x := by
  induction l generalizing a with
  | nil => cases hx
  | cons y ys ih =>
    rcases List.mem_cons.mp hx with rfl | h
    · exact le_trans (foldl_min_le_init ys (min a x)) (min_le_right a x)
    · exact ih (min a y) h

theorem foldl_min_mem_or (l : List Int) (a : Int) :
    l.foldl min a = a ∨ l.foldl min a ∈ l := by
  induction l generalizing a with
  | nil => left; rfl
  | cons x xs ih =>
    rw [List.foldl_cons]
    rcases ih (min a x) with h | h
    · rcases le_total a x with hax | hxa
      · left; rw [h, min_eq_left hax]
      · right; rw [h, min_eq_right hxa]; exact List.Mem.head _
    · right; exact List.Mem.tail _ h

theorem foldl_min_comm (l : List Int) (a b : Int) :
    l.foldl min (min a b) = min a (l.foldl min b) := by
  induction l generalizing b with
  | nil => simp
  | cons x xs ih => rw [List.foldl_cons, List.foldl_cons, min_assoc, ih]

theorem listMin_le_mem (l : List Int) (x : Int) (hx : x ∈ l) : listMin l ≤ x := by
  cases l with
  | nil => cases hx
  | cons t ts =>
    rcases List.mem_cons.mp hx with rfl | h
    · exact foldl_min_le_init ts x
    · exact foldl_min_le_mem ts t x h

theorem listMin_mem (l : List Int) (h : l ≠ []) : listMin l ∈ l := by
  cases l with
  | nil => exact absurd rfl h
  | cons t ts =>
    rcases foldl_min_mem_or ts t with h1 | h1
    · rw [listMin, h1]; exact List.Mem.head _
    · exact List.Mem.tail _ h1

theorem listMin_append (l m : List Int) (hl : l ≠ []) (hm : m ≠ []) :
    listMin (l ++ m) = min (listMin l) (listMin m) := by
  cases l with
  | nil => exact absurd rfl hl
  | cons t ts =>
    cases m with
    | nil => exact absurd rfl hm
    | cons u us =>
      show ((ts ++ u :: us).foldl min t) = _
      rw [List.foldl_append, List.foldl_cons]
      exact foldl_min_comm us (ts.foldl min t) u

theorem minDate_le (l : List Row) (b : Row) (hb : b ∈ l) : minDate l ≤ b.date :=
  listMin_le_mem _ _ (List.mem_map_of_mem Row.date hb)

theorem minDate_le_bound (l : List Row) (e : Int) (hne : l ≠ [])
    (h : ∀ b ∈ l, b.date ≤ e) : minDate l ≤ e := by
  have hmem := listMin_mem (l.map Row.date) (by simpa using hne)
  rcases List.mem_map.mp hmem with ⟨b, hbl, hbd⟩
  rw [minDate, ← hbd]
  exact h b hbl

theorem minDate_append (l m : List Row) (hl : l ≠ []) (hm : m ≠ []) :
    minDate (l ++ m) = min (minDate l) (minDate m) := by
  unfold minDate
  rw [List.map_append]
  exact listMin_append _ _ (by simpa using hl) (by simpa using hm)

/-! ## General lemmas: the retry loop -/

theorem retryGo_some_ex (att : Nat → Option (List Row)) :
    ∀ (fuel r : Nat) (sl : List Nat) (bars : List Row),
      (retryGo att fuel r sl).result = some bars → ∃ k, att k = some bars := by
  intro fuel
  induction fuel with
  | zero => intro r sl bars h; exact absurd h (by simp [retryGo])
  | succ f ih =>
    intro r sl bars h
    unfold retryGo at h
    cases hr : att r with
    | some bs =>
      rw [hr] at h
      simp only at h
      exact ⟨r, by rw [hr, h]⟩
    | none =>
      rw [hr] at h
      by_cases hf : f = 0
      · rw [if_pos hf] at h; simp at h
      · rw [if_neg hf] at h; exact ih (r + 1) (sl ++ [2 ^ r]) bars h

theorem retryRun_some_ex (att : Nat → Option (List Row)) (bars : List Row)
    (h : (retryRun att).result = some bars) : ∃ k, att k = some bars :=
  retryGo_some_ex att 3 0 [] bars h

theorem retryRun_none_all (att : Nat → Option (List Row))
    (h : (retryRun att).result = none) :
    att 0 = none ∧ att 1 = none ∧ att 2 = none := by
  cases h0 : att 0 with
  | some b0 => rw [retryRun] at h; simp [retryGo, h0] at h
  | none =>
    cases h1 : att 1 with
    | some b1 => rw [retryRun] at h; simp [retryGo, h0, h1] at h
    | none =>
      cases h2 : att 2 with
      | some b2 => rw [retryRun] at h; simp [retryGo, h0, h1, h2] at h
      | none => exact ⟨by simp [h0], by simp [h1], by simp [h2]⟩

/-! ## General lemmas: trace observations -/

@[simp] theorem reqTimes_request_some (e : Int) (t : List Ev) :
    reqTimes (Ev.request (some e) :: t) = e :: reqTimes t := by
  simp [reqTimes]

@[simp] theorem reqTimes_request_none (t : List Ev) :
    reqTimes (Ev.request none :: t) = reqTimes t := by
  simp [reqTimes]

@[simp] theorem reqTimes_append (bs : List Row) (t : List Ev) :
    reqTimes (Ev.append bs :: t) = reqTimes t := by
  simp [reqTimes]

@[simp] theorem reqTimes_sleep (t : List Ev) :
    reqTimes (Ev.sleep :: t) = reqTimes t := by
  simp [reqTimes]

@[simp] theorem reqTimes_persist (c : Int) (t : List Ev) :
    reqTimes (Ev.persist c :: t) = reqTimes t := by
  simp [reqTimes]

@[simp] theorem reqNoneFree_request_some (e : Int) (t : List Ev) :
    reqNoneFree (Ev.request (some e) :: t) = reqNoneFree t := by
  simp [reqNoneFree]

@[simp] theorem reqNoneFree_append (bs : List Row) (t : List Ev) :
    reqNoneFree (Ev.append bs :: t) = reqNoneFree t := by
  simp [reqNoneFree]

@[simp] theorem reqNoneFree_sleep (t : List Ev) :
    reqNoneFree (Ev.sleep :: t) = reqNoneFree t := by
  simp [reqNoneFree]

@[simp] theorem reqNoneFree_persist (c : Int) (t : List Ev) :
    reqNoneFree (Ev.persist c :: t) = reqNoneFree t := by
  simp [reqNoneFree]

@[simp] theorem filterAP_request (e : Option Int) (t : List Ev) :
    filterAP (Ev.request e :: t) = filterAP t := by
  simp [filterAP]

@[simp] theorem filterAP_append (bs : List Row) (t : List Ev) :
    filterAP (Ev.append bs :: t) = Ev.append bs :: filterAP t := by
  simp [filterAP]

@[simp] theorem filterAP_sleep (t : List Ev) :
    filterAP (Ev.sleep :: t) = filterAP t := by
  simp [filterAP]

@[simp] theorem filterAP_persist (c : Int) (t : List Ev) :
    filterAP (Ev.persist c :: t) = Ev.persist c :: filterAP t := by
  simp [filterAP]

/-! ## General lemmas: the checkpoint mapping -/

theorem logGet_cons (p : String × Int) (ps : List (String × Int)) (k : String) :
    logGet (p :: ps) k = if p.1 == k then some p.2 else logGet ps k := by
  by_cases h : (p.1 == k) = true
  · simp [logGet, List.find?_cons, h]
  · simp [logGet, List.find?_cons, h]

theorem logGet_map_upd (log : List (String × Int)) (k k' : String) (v : Int)
    (h : k' ≠ k) :
    logGet (log.map (fun p => if p.1 == k then (k, v) else p)) k' = logGet log k' := by
  induction log with
  | nil => rfl
  | cons p ps ih =>
    rw [List.map_cons, logGet_cons, logGet_cons]
    simp only [beq_iff_eq] at ih ⊢
    by_cases hp : p.1 = k
    · simp [hp, Ne.symm h, ih]
    · simp [hp, ih]

theorem logGet_append_new (log : List (String × Int)) (k k' : String) (v : Int)
    (h : k' ≠ k) :
    logGet (log ++ [(k, v)]) k' = logGet log k' := by
  induction log with
  | nil =>
    have h2 : (k == k') = false := by simpa using (Ne.symm h)
    simp [logGet, List.find?_cons, h2]
  | cons p ps ih =>
    rw [List.cons_append, logGet_cons, logGet_cons, ih]

/-! ## Claim theorems -/

/-- Claim C9 (confirmed): the Merger is deterministic; two runs over the same
set of per-contract files, at wall-clock times t1 and t2, write the same
combined table contents (only the timestamped file name differs).  In this
sequential embedding the merge pipeline is a pure function of the files, so
concatenation order, dropped duplicates and sort result coincide run to
run. -/
theorem c9_merge_deterministic (files : List (String × Option (List Row))) (t1 t2 : Int) :
    (outputOf files t1).2 = (outputOf files t2).2 := rfl

/-- Claim C6 (confirmed): at INIT, when the expiry parses, a stored checkpoint
is used as the starting cursor unchanged; with no stored checkpoint the
cursor starts at 23:59:59 of the expiry date if that date lies in the past,
and stays unset (meaning now) otherwise. -/
theorem c6_init_cursor (log : List (String × Int)) (sym expiry : String) (now : Int)
    (d : Ymd) (hp : parseExpiry expiry = some d) :
    (logGet log sym = none → dateSec d < now →
      initEndDt log sym expiry now = some (some (dateSec d + 86399))) ∧
    (∀ c, logGet log sym = some c → initEndDt log sym expiry now = some (some c)) ∧
    (logGet log sym = none → ¬ dateSec d < now → initEndDt log sym expiry now = some none) := by
  unfold initEndDt
  rw [hp]
  refine ⟨fun h1 h2 => ?_, fun c h1 => ?_, fun h1 h2 => ?_⟩
  · rw [h1]; simp [h2]
  · rw [h1]
  · rw [h1]; simp [h2]

/-- Witness for c6_init_cursor at a concrete expired contract. -/
theorem c6_init_cursor_witness :
    parseExpiry "20240315" = some ⟨2024, 3, 15⟩ ∧
    ((logGet [] "MESM4" = none → dateSec ⟨2024, 3, 15⟩ < dateSec ⟨2025, 1, 1⟩ →
      initEndDt [] "MESM4" "20240315" (dateSec ⟨2025, 1, 1⟩) =
        some (some (dateSec ⟨2024, 3, 15⟩ + 86399))) ∧
    (∀ c, logGet [] "MESM4" = some c →
      initEndDt [] "MESM4" "20240315" (dateSec ⟨2025, 1, 1⟩) = some (some c)) ∧
    (logGet [] "MESM4" = none → ¬ dateSec ⟨2024, 3, 15⟩ < dateSec ⟨2025, 1, 1⟩ →
      initEndDt [] "MESM4" "20240315" (dateSec ⟨2025, 1, 1⟩) = some none)) :=
  ⟨by decide, c6_init_cursor [] "MESM4" "20240315" (dateSec ⟨2025, 1, 1⟩) ⟨2024, 3, 15⟩
    (by decide)⟩

/-- Claim C7 (code bug, evaluated at the failing input): the year-month expiry
string "202512" is accepted by the first strptime("%Y%m%d") pass and parses
as January 2 2025 rather than December 2025 with day defaulting to 01,
because %m and %d each match one or two digits.  With now = 2027-06-01 the
contract is therefore excluded even though December 1 2025 lies inside the
trailing 730-day window claimed by the specification. -/
theorem c7_expiry_parse_eval :
    parseExpiry "202512" = some ⟨2025, 1, 2⟩ ∧
    filterContracts (dateSec ⟨2027, 6, 1⟩) [⟨"202512", "MESZ5"⟩] = [] ∧
    twoYearsAgo (dateSec ⟨2027, 6, 1⟩) ≤ dateSec ⟨2025, 12, 1⟩ ∧
    parseExpiry "202503" = some ⟨2025, 3, 1⟩ := by
  refine ⟨by decide, by decide, by decide, by decide⟩

/-- Claim C10 (confirmed): persisting one contract's checkpoint entry leaves
every other contract's stored cursor unchanged. -/
theorem c10_log_frame (log : List (String × Int)) (k k' : String) (v : Int)
    (h : k' ≠ k) :
    logGet (logSet log k v) k' = logGet log k' := by
  unfold logSet
  by_cases hf : (log.find? (fun p => p.1 == k)).isSome
  · rw [if_pos hf]; exact logGet_map_upd log k k' v h
  · rw [if_neg hf]; exact logGet_append_new log k k' v h

/-- Witness for c10_log_frame on a concrete two-entry log. -/
theorem c10_log_frame_witness :
    ("MESM4" : String) ≠ "MESZ5" ∧
    logGet (logSet [("MESM4", 5)] "MESZ5" 7) "MESM4" = logGet [("MESM4", 5)] "MESM4" :=
  ⟨by decide, c10_log_frame [("MESM4", 5)] "MESZ5" "MESM4" 7 (by decide)⟩

/-! ## General lemmas: failure analysis of one step -/

theorem fetchStep_failed (cfg : FetchCfg) (s : FetchState)
    (h : (fetchStep cfg s).phase = Phase.failed) :
    s.phase = Phase.failed ∨
      (s.phase = Phase.atRequest ∧ (retryRun (cfg.attempts s.endDt)).result = none) := by
  obtain ⟨e, fl, cp, ph, tr⟩ := s
  cases ph with
  | atRequest =>
    right
    refine ⟨rfl, ?_⟩
    by_cases hr : (retryRun (cfg.attempts e)).result = none
    · exact hr
    · exfalso
      rcases Option.ne_none_iff_exists'.mp hr with ⟨bars, hb⟩
      by_cases he : bars.isEmpty
      · simp [fetchStep, hb, he] at h
      · simp [fetchStep, hb, he] at h
  | gotBars bars =>
    exfalso
    by_cases he : (bars.filter (fun b => decide (cfg.startDate ≤ b.date))).isEmpty
    · simp [fetchStep, he] at h
    · simp [fetchStep, he] at h
  | filtered bars => exact absurd h (by simp [fetchStep])
  | appended bars => exact absurd h (by simp [fetchStep])
  | slept bars =>
    exfalso
    by_cases hm : minDate bars ≤ cfg.startDate
    · simp [fetchStep, hm] at h
    · simp [fetchStep, hm] at h
  | done => exact absurd h (by simp [fetchStep])
  | failed => left; rfl

/-- Claim C5 (confirmed): each page request makes at most 3 attempts; a
request failing twice and succeeding on the third attempt sleeps exactly 1
and 2 seconds (2 to the power k-1 after failing attempt k); a request whose
retries are exhausted has seen all three attempts raise, after backoffs of 1
and 2 seconds; the per-contract driver continues with the remaining
contracts after any outcome; and the fetch loop only ever reaches the failed
phase through a request whose three attempts all raised. -/
theorem c5_retry_policy :
    (∀ att : Nat → Option (List Row), (retryRun att).used ≤ 3) ∧
    (∀ (att : Nat → Option (List Row)) (bs : List Row),
      att 0 = none → att 1 = none → att 2 = some bs →
      retryRun att = ⟨some bs, [1, 2], 3⟩) ∧
    (∀ att : Nat → Option (List Row), (retryRun att).result = none →
      att 0 = none ∧ att 1 = none ∧ att 2 = none ∧ (retryRun att).used = 3 ∧
      (retryRun att).sleeps = [1, 2]) ∧
    (∀ (f : ContractDet → Outcome) (c : ContractDet) (cs : List ContractDet),
      processAll f (c :: cs) = (c, f c) :: processAll f cs) ∧
    (∀ (cfg : FetchCfg) (cursor : Option Int) (f0 : List Row) (cp0 : Option Int) (n : Nat),
      (fetchRun cfg (initState cursor f0 cp0) n).phase = Phase.failed →
      ∃ e, cfg.attempts e 0 = none ∧ cfg.attempts e 1 = none ∧ cfg.attempts e 2 = none) := by
  refine ⟨?_, ?_, ?_, ?_, ?_⟩
  · intro att
    cases h0 : att 0 with
    | some b => simp [retryRun, retryGo, h0]
    | none =>
      cases h1 : att 1 with
      | some b => simp [retryRun, retryGo, h0, h1]
      | none =>
        cases h2 : att 2 with
        | some b => simp [retryRun, retryGo, h0, h1, h2]
        | none => simp [retryRun, retryGo, h0, h1, h2]
  · intro att bs h0 h1 h2
    simp [retryRun, retryGo, h0, h1, h2]
  · intro att h
    obtain ⟨h0, h1, h2⟩ := retryRun_none_all att h
    refine ⟨h0, h1, h2, ?_, ?_⟩
    · simp [retryRun, retryGo, h0, h1, h2]
    · simp [retryRun, retryGo, h0, h1, h2]
  · intro f c cs
    rfl
  · intro cfg cursor f0 cp0 n
    induction n with
    | zero =>
      intro h
      exact absurd h (by simp [fetchRun, initState])
    | succ m ih =>
      intro h
      rw [fetchRun] at h
      rcases fetchStep_failed cfg _ h with hf | ⟨_, hr⟩
      · exact ih hf
      · exact ⟨(fetchRun cfg (initState cursor f0 cp0) m).endDt, retryRun_none_all _ hr⟩

/-- Witness for c5_retry_policy: the fail-fail-succeed attempt sequence and
a run abandoned after three raised attempts. -/
theorem c5_retry_policy_witness :
    (attEx 0 = none ∧ attEx 1 = none ∧ attEx 2 = some [rowAt 7]) ∧
    retryRun attEx = ⟨some [rowAt 7], [1, 2], 3⟩ ∧
    (fetchRun failCfg (initState none [] none) 1).phase = Phase.failed ∧
    (∃ e, failCfg.attempts e 0 = none ∧ failCfg.attempts e 1 = none ∧
      failCfg.attempts e 2 = none) :=
  ⟨⟨rfl, rfl, rfl⟩,
   c5_retry_policy.2.1 attEx [rowAt 7] rfl rfl rfl,
   rfl,
   c5_retry_policy.2.2.2.2 failCfg none [] none 1 rfl⟩

/-! ## General lemmas: the merge pipeline -/

theorem dedupGo_of_nodup :
    ∀ (l seen : List MRow), l.Nodup → (∀ x ∈ l, x ∉ seen) → dedupGo seen l = l := by
  intro l
  induction l with
  | nil => intro seen _ _; rfl
  | cons r rs ih =>
    intro seen hnd hni
    have hr : r ∉ seen := hni r (List.Mem.head _)
    unfold dedupGo
    rw [if_neg hr]
    have h1 : rs.Nodup := (List.nodup_cons.mp hnd).2
    have h2 : r ∉ rs := (List.nodup_cons.mp hnd).1
    have h3 : dedupGo (r :: seen) rs = rs := by
      apply ih
      · exact h1
      · intro x hx hmem
        rcases List.mem_cons.mp hmem with rfl | hxs
        · exact h2 hx
        · exact hni x (List.Mem.tail _ hx) hxs
    rw [h3]

theorem dedupFirst_of_nodup (l : List MRow) (h : l.Nodup) : dedupFirst l = l :=
  dedupGo_of_nodup l [] h (fun x _ hx => (List.not_mem_nil x) hx)

theorem tagRows_injective (sym : String) : Function.Injective
    (fun r : Row => (⟨r.date, r.open_, r.high, r.low, r.close, r.volume, sym⟩ : MRow)) := by
  intro r1 r2 h
  cases r1
  cases r2
  simpa using h

theorem tagRows_nodup (sym : String) (rs : List Row) (h : rs.Nodup) :
    (tagRows sym rs).Nodup :=
  List.Nodup.map (tagRows_injective sym) h

theorem tagRows_contract (sym : String) (rs : List Row) (x : MRow)
    (hx : x ∈ tagRows sym rs) : x.contract = sym := by
  rcases List.mem_map.mp hx with ⟨r, _, rfl⟩
  rfl

/-- Claim C1 (amended and proved): for two per-contract files of 3 and 4
duplicate-free rows belonging to distinct contracts with exactly one shared
timestamp, the combined output has 7 rows, not 6: drop_duplicates removes
only exact duplicate rows, and rows from different contracts always differ
in the contract column.  The output is sorted ascending by timestamp and is
a permutation of the tagged concatenation of the two files (nothing is
dropped). -/
theorem c1_merge_amended (a b : String) (A B : List Row)
    (hab : a ≠ b) (hA : A.length = 3) (hB : B.length = 4)
    (hAnd : A.Nodup) (hBnd : B.Nodup)
    (_hshared : ((A.map Row.date).filter (fun t => t ∈ B.map Row.date)).length = 1) :
    (mergeResult [(a, some A), (b, some B)]).length = 7 ∧
    List.Sorted byDate (mergeResult [(a, some A), (b, some B)]) ∧
    (mergeResult [(a, some A), (b, some B)]).Perm (tagRows a A ++ tagRows b B) := by
  have hAne : A ≠ [] := by intro hh; rw [hh] at hA; simp at hA
  have hBne : B ≠ [] := by intro hh; rw [hh] at hB; simp at hB
  have hcoll : collectData [(a, some A), (b, some B)] = [tagRows a A, tagRows b B] := by
    simp [collectData, List.filterMap_cons, hAne, hBne]
  have hflat : (collectData [(a, some A), (b, some B)]).flatten =
      tagRows a A ++ tagRows b B := by
    rw [hcoll]
    simp
  have hnodup : (tagRows a A ++ tagRows b B).Nodup := by
    refine List.Nodup.append (tagRows_nodup a A hAnd) (tagRows_nodup b B hBnd) ?_
    intro x hxa hxb
    exact hab ((tagRows_contract a A x hxa).symm.trans (tagRows_contract b B x hxb))
  have hperm : (mergeResult [(a, some A), (b, some B)]).Perm
      (tagRows a A ++ tagRows b B) := by
    unfold mergeResult
    rw [hflat, dedupFirst_of_nodup _ hnodup]
    exact List.perm_insertionSort byDate _
  refine ⟨?_, ?_, hperm⟩
  · rw [hperm.length_eq]
    simp [tagRows, hA, hB]
  · unfold mergeResult
    exact List.sorted_insertionSort byDate _

/-- Witness for c1_merge_amended on the concrete 3-row and 4-row files. -/
theorem c1_merge_amended_witness :
    (("MESU5" : String) ≠ "MESZ5" ∧ fileA.length = 3 ∧ fileB.length = 4 ∧
      fileA.Nodup ∧ fileB.Nodup ∧
      ((fileA.map Row.date).filter (fun t => t ∈ fileB.map Row.date)).length = 1) ∧
    ((mergeResult [("MESU5", some fileA), ("MESZ5", some fileB)]).length = 7 ∧
      List.Sorted byDate (mergeResult [("MESU5", some fileA), ("MESZ5", some fileB)]) ∧
      (mergeResult [("MESU5", some fileA), ("MESZ5", some fileB)]).Perm
        (tagRows "MESU5" fileA ++ tagRows "MESZ5" fileB)) :=
  ⟨⟨by decide, by decide, by decide, by decide, by decide, by decide⟩,
   c1_merge_amended "MESU5" "MESZ5" fileA fileB (by decide) (by decide) (by decide)
     (by decide) (by decide) (by decide)⟩

/-- Claim C1 (counterexample to the stated 6-row outcome): on the concrete
3-row and 4-row files sharing the timestamp 3, the combined output holds 7
rows, because the shared bar is tagged with two different contract values
and exact-row deduplication keeps both. -/
theorem c1_merge_counterexample :
    (mergeResult [("MESU5", some fileA), ("MESZ5", some fileB)]).length = 7 ∧
    ¬ (mergeResult [("MESU5", some fileA), ("MESZ5", some fileB)]).length = 6 := by
  refine ⟨by decide, by decide⟩

/-! ## General lemmas: getLast? helpers -/

theorem getLast?_cons_ne {α : Type} (a : α) (l : List α) (h : l ≠ []) :
    (a :: l).getLast? = l.getLast? := by
  cases l with
  | nil => exact absurd rfl h
  | cons x xs => exact List.getLast?_cons_cons

theorem getLast?_cons_c0 (e c0 : Int) (l : List Int) (h0 : l = [] → e = c0)
    (h1 : l ≠ [] → l.getLast? = some c0) : (e :: l).getLast? = some c0 := by
  cases l with
  | nil => simp [h0 rfl]
  | cons x xs =>
    rw [List.getLast?_cons_cons]
    exact h1 (by simp)

/-! ## The step ordering invariant (claim C8) -/

theorem orderInv_step (cfg : FetchCfg) (s : FetchState) (h : orderInv s) :
    orderInv (fetchStep cfg s) := by
  obtain ⟨e0, fl, cp, ph, tr⟩ := s
  cases ph with
  | atRequest =>
    simp only [orderInv] at h
    cases hr : (retryRun (cfg.attempts e0)).result with
    | none =>
      simp only [fetchStep, hr, orderInv]
      exact h
    | some bars =>
      by_cases he : bars.isEmpty
      · simp only [fetchStep, hr, he, if_true, orderInv]
        show revSeq (Ev.request e0 :: tr) = true
        show revBlocks tr = true
        exact h
      · simp only [fetchStep, hr, he, if_false, orderInv]
        exact ⟨e0, tr, rfl, h⟩
  | gotBars bars =>
    simp only [orderInv] at h
    obtain ⟨e, t, htr, hblk⟩ := h
    by_cases he : (bars.filter (fun b => decide (cfg.startDate ≤ b.date))).isEmpty
    · simp only [fetchStep, he, if_true, orderInv]
      rw [htr]
      show revBlocks t = true
      exact hblk
    · simp only [fetchStep, he, if_false, orderInv]
      exact ⟨e, t, htr, hblk⟩
  | filtered bars =>
    simp only [orderInv] at h
    obtain ⟨e, t, htr, hblk⟩ := h
    simp only [fetchStep, orderInv]
    exact ⟨e, t, by rw [htr], hblk⟩
  | appended bars =>
    simp only [orderInv] at h
    obtain ⟨e, t, htr, hblk⟩ := h
    simp only [fetchStep, orderInv]
    exact ⟨e, t, by rw [htr], hblk⟩
  | slept bars =>
    simp only [orderInv] at h
    obtain ⟨e, t, htr, hblk⟩ := h
    by_cases hm : minDate bars ≤ cfg.startDate
    · simp only [fetchStep, hm, if_true, orderInv]
      rw [htr]
      show revBlocks (Ev.persist (minDate bars - 60) :: Ev.sleep ::
        Ev.append bars :: Ev.request e :: t) = true
      simpa using hblk
    · simp only [fetchStep, hm, if_false, orderInv]
      rw [htr]
      show revBlocks (Ev.persist (minDate bars - 60) :: Ev.sleep ::
        Ev.append bars :: Ev.request e :: t) = true
      simpa using hblk
  | done =>
    simp only [orderInv] at h
    simp only [fetchStep, orderInv]
    exact h
  | failed =>
    simp only [orderInv] at h
    simp only [fetchStep, orderInv]
    exact h

theorem orderInv_run (cfg : FetchCfg) (cursor : Option Int) (f0 : List Row)
    (cp0 : Option Int) (n : Nat) :
    orderInv (fetchRun cfg (initState cursor f0 cp0) n) := by
  induction n with
  | zero => simp [fetchRun, initState, orderInv, revBlocks]
  | succ m ih => exact orderInv_step cfg _ ih

theorem revSeq_of_orderInv (s : FetchState) (h : orderInv s) : revSeq s.trace = true := by
  rcases s with ⟨e0, fl, cp, ph, tr⟩
  cases ph with
  | atRequest =>
    simp only [orderInv] at h
    show revSeq tr = true
    cases tr with
    | nil => rfl
    | cons ev t =>
      cases ev with
      | request e => exact absurd h (by simp [revBlocks])
      | append bs => exact absurd h (by simp [revBlocks])
      | sleep => exact absurd h (by simp [revBlocks])
      | persist c => exact h
  | gotBars bars =>
    simp only [orderInv] at h
    obtain ⟨e, t, htr, hblk⟩ := h
    show revSeq tr = true
    rw [htr]
    exact hblk
  | filtered bars =>
    simp only [orderInv] at h
    obtain ⟨e, t, htr, hblk⟩ := h
    show revSeq tr = true
    rw [htr]
    exact hblk
  | appended bars =>
    simp only [orderInv] at h
    obtain ⟨e, t, htr, hblk⟩ := h
    show revSeq tr = true
    rw [htr]
    exact hblk
  | slept bars =>
    simp only [orderInv] at h
    obtain ⟨e, t, htr, hblk⟩ := h
    show revSeq tr = true
    rw [htr]
    exact hblk
  | done => exact h
  | failed => exact h

/-- Claim C8 (amended and proved): within one iteration of the FETCHING loop
the appended page comes first, then the 1.1-second rate-limit sleep, and the
checkpoint update and persist come after the sleep: every completed
iteration leaves the trace block persist, sleep, append, request (most
recent first), for any API behaviour and any starting state of INIT. -/
theorem c8_order_amended (cfg : FetchCfg) (cursor : Option Int) (f0 : List Row)
    (cp0 : Option Int) (n : Nat) :
    revSeq (fetchRun cfg (initState cursor f0 cp0) n).trace = true :=
  revSeq_of_orderInv _ (orderInv_run cfg cursor f0 cp0 n)

/-- Claim C8 (counterexample to the stated order): on the concrete two-page
API, after the first completed iteration the trace is persist, sleep,
append, request (most recent first), so the checkpoint persist does not
precede the rate-limit sleep as the specification's step order states. -/
theorem c8_order_counterexample :
    ¬ (∀ n : Nat, specSeq (fetchRun exCfg (initState none [] none) n).trace = true) := by
  intro h
  exact absurd (h 5) (by decide)

/-! ## The append / persist pairing invariant (claim C3) -/

theorem apInv_step (cfg : FetchCfg) (s : FetchState) (h : apInv s) :
    apInv (fetchStep cfg s) := by
  obtain ⟨e0, fl, cp, ph, tr⟩ := s
  cases ph with
  | atRequest =>
    simp only [apInv] at h
    cases hr : (retryRun (cfg.attempts e0)).result with
    | none =>
      simp only [fetchStep, hr, apInv]
      simpa using h
    | some bars =>
      by_cases he : bars.isEmpty
      · simp only [fetchStep, hr, he, if_true, apInv]
        simpa using h
      · simp only [fetchStep, hr, he, if_false, apInv]
        simpa using h
  | gotBars bars =>
    simp only [apInv] at h
    by_cases he : (bars.filter (fun b => decide (cfg.startDate ≤ b.date))).isEmpty
    · simp only [fetchStep, he, if_true, apInv]
      exact h
    · simp only [fetchStep, he, if_false, apInv]
      exact h
  | filtered bars =>
    simp only [apInv] at h
    simp only [fetchStep, apInv]
    exact ⟨filterAP tr, by simp, h⟩
  | appended bars =>
    simp only [apInv] at h
    obtain ⟨t, htr, ht⟩ := h
    simp only [fetchStep, apInv]
    exact ⟨t, by simpa using htr, ht⟩
  | slept bars =>
    simp only [apInv] at h
    obtain ⟨t, htr, ht⟩ := h
    by_cases hm : minDate bars ≤ cfg.startDate
    · simp only [fetchStep, hm, if_true, apInv]
      simp [htr, apRev, ht]
    · simp only [fetchStep, hm, if_false, apInv]
      simp [htr, apRev, ht]
  | done =>
    simp only [apInv] at h
    simp only [fetchStep, apInv]
    exact h
  | failed =>
    simp only [apInv] at h
    simp only [fetchStep, apInv]
    exact h

theorem apInv_run (cfg : FetchCfg) (cursor : Option Int) (f0 : List Row)
    (cp0 : Option Int) (n : Nat) :
    apInv (fetchRun cfg (initState cursor f0 cp0) n) := by
  induction n with
  | zero => simp [fetchRun, initState, apInv, filterAP, apRev]
  | succ m ih => exact apInv_step cfg _ ih

theorem apRevTop_of_apInv (s : FetchState) (h : apInv s) :
    apRevTop (filterAP s.trace) = true := by
  rcases s with ⟨e0, fl, cp, ph, tr⟩
  cases ph with
  | appended bars =>
    simp only [apInv] at h
    obtain ⟨t, htr, ht⟩ := h
    show apRevTop (filterAP tr) = true
    rw [htr]
    exact ht
  | slept bars =>
    simp only [apInv] at h
    obtain ⟨t, htr, ht⟩ := h
    show apRevTop (filterAP tr) = true
    rw [htr]
    exact ht
  | atRequest =>
    simp only [apInv] at h
    show apRevTop (filterAP tr) = true
    cases hF : filterAP tr with
    | nil => rfl
    | cons ev t =>
      rw [hF] at h
      cases ev with
      | request e => exact h
      | append bs => exact absurd h (by simp [apRev])
      | sleep => exact h
      | persist c => exact h
  | gotBars bars =>
    simp only [apInv] at h
    show apRevTop (filterAP tr) = true
    cases hF : filterAP tr with
    | nil => rfl
    | cons ev t =>
      rw [hF] at h
      cases ev with
      | request e => exact h
      | append bs => exact absurd h (by simp [apRev])
      | sleep => exact h
      | persist c => exact h
  | filtered bars =>
    simp only [apInv] at h
    show apRevTop (filterAP tr) = true
    cases hF : filterAP tr with
    | nil => rfl
    | cons ev t =>
      rw [hF] at h
      cases ev with
      | request e => exact h
      | append bs => exact absurd h (by simp [apRev])
      | sleep => exact h
      | persist c => exact h
  | done =>
    simp only [apInv] at h
    show apRevTop (filterAP tr) = true
    cases hF : filterAP tr with
    | nil => rfl
    | cons ev t =>
      rw [hF] at h
      cases ev with
      | request e => exact h
      | append bs => exact absurd h (by simp [apRev])
      | sleep => exact h
      | persist c => exact h
  | failed =>
    simp only [apInv] at h
    show apRevTop (filterAP tr) = true
    cases hF : filterAP tr with
    | nil => rfl
    | cons ev t =>
      rw [hF] at h
      cases ev with
      | request e => exact h
      | append bs => exact absurd h (by simp [apRev])
      | sleep => exact h
      | persist c => exact h

/-- Claim C3 (confirmed): in any run of the fetch loop, CSV appends and
checkpoint persists alternate one to one (one persist per appended page, no
batching), every persisted value is exactly the minimum timestamp of that
page's surviving bars minus one minute, and the persist step sets the
in-memory cursor, the persisted entry and the trace accordingly. -/
theorem c3_checkpoint_update (cfg : FetchCfg) (cursor : Option Int) (f0 : List Row)
    (cp0 : Option Int) (n : Nat) :
    apRevTop (filterAP (fetchRun cfg (initState cursor f0 cp0) n).trace) = true ∧
    (∀ (s : FetchState) (bars : List Row), s.phase = Phase.slept bars →
      (fetchStep cfg s).cp = some (minDate bars - 60) ∧
      (fetchStep cfg s).endDt = some (minDate bars - 60) ∧
      (fetchStep cfg s).trace = Ev.persist (minDate bars - 60) :: s.trace) := by
  constructor
  · exact apRevTop_of_apInv _ (apInv_run cfg cursor f0 cp0 n)
  · intro s bars hph
    obtain ⟨e0, fl, cp, ph, tr⟩ := s
    have hph' : ph = Phase.slept bars := hph
    subst hph'
    refine ⟨?_, ?_, ?_⟩ <;> simp [fetchStep]

/-- Witness for c3_checkpoint_update at a concrete pre-persist state. -/
theorem c3_checkpoint_update_witness :
    c3s.phase = Phase.slept [rowAt 500] ∧
    (fetchStep exCfg c3s).cp = some (minDate [rowAt 500] - 60) ∧
    (fetchStep exCfg c3s).endDt = some (minDate [rowAt 500] - 60) ∧
    (fetchStep exCfg c3s).trace = Ev.persist (minDate [rowAt 500] - 60) :: c3s.trace :=
  ⟨rfl,
   ((c3_checkpoint_update exCfg none [] none 0).2 c3s [rowAt 500] rfl).1,
   ((c3_checkpoint_update exCfg none [] none 0).2 c3s [rowAt 500] rfl).2.1,
   ((c3_checkpoint_update exCfg none [] none 0).2 c3s [rowAt 500] rfl).2.2⟩

/-! ## The request monotonicity invariant (claim C4) -/

theorem mem_of_getLast?_eq {α : Type} {l : List α} {a : α}
    (h : l.getLast? = some a) : a ∈ l := by
  induction l with
  | nil => cases h
  | cons x xs ih =>
    cases xs with
    | nil =>
      have hx : x = a := by simpa using h
      rw [hx]
      exact List.Mem.head _
    | cons y ys =>
      rw [List.getLast?_cons_cons] at h
      exact List.Mem.tail x (ih h)

theorem reqInv_step (cfg : FetchCfg) (hb : ApiBounded cfg) (c0 : Int) (s : FetchState)
    (h : reqInv c0 s) : reqInv c0 (fetchStep cfg s) := by
  obtain ⟨e0, fl, cp, ph, tr⟩ := s
  cases ph with
  | atRequest =>
    simp only [reqInv] at h
    obtain ⟨hP0, hP1, hP2, hP3, hP4, e, he, heC0, heLt⟩ := h
    subst he
    have heLe : e ≤ c0 := by
      rcases hE : reqTimes tr with _ | ⟨u, us⟩
      · exact le_of_eq (heC0 hE)
      · have hlast := hP2 (by rw [hE]; simp)
        have hmem : c0 ∈ reqTimes tr := mem_of_getLast?_eq hlast
        exact le_of_lt (heLt c0 hmem)
    have hLast : (e :: reqTimes tr).getLast? = some c0 :=
      getLast?_cons_c0 e c0 _ heC0 hP2
    have hPw : List.Pairwise (fun x y => x < y) (e :: reqTimes tr) :=
      List.pairwise_cons.mpr ⟨heLt, hP3⟩
    have hLe : ∀ x ∈ e :: reqTimes tr, x ≤ c0 := by
      intro x hx
      rcases List.mem_cons.mp hx with rfl | hx'
      · exact heLe
      · exact hP4 x hx'
    cases hr : (retryRun (cfg.attempts (some e))).result with
    | none =>
      have hstep : fetchStep cfg ⟨some e, fl, cp, Phase.atRequest, tr⟩ =
          ⟨some e, fl, cp, Phase.failed, Ev.request (some e) :: tr⟩ := by
        simp [fetchStep, hr]
      rw [hstep]
      simp only [reqInv, reqTimes_request_some, reqNoneFree_request_some]
      exact ⟨hP0, fun hh => absurd hh (List.cons_ne_nil _ _), fun _ => hLast, hPw, hLe,
        trivial⟩
    | some bars =>
      by_cases hemp : bars.isEmpty
      · have hstep : fetchStep cfg ⟨some e, fl, cp, Phase.atRequest, tr⟩ =
            ⟨some e, fl, cp, Phase.done, Ev.request (some e) :: tr⟩ := by
          simp [fetchStep, hr, hemp]
        rw [hstep]
        simp only [reqInv, reqTimes_request_some, reqNoneFree_request_some]
        exact ⟨hP0, fun hh => absurd hh (List.cons_ne_nil _ _), fun _ => hLast, hPw, hLe,
          trivial⟩
      · have hemp' : bars.isEmpty = false := by simpa using hemp
        have hbne : bars ≠ [] := by simpa [List.isEmpty_iff] using hemp
        have hbb : ∀ b ∈ bars, b.date ≤ e := by
          rcases retryRun_some_ex _ bars hr with ⟨k, hk⟩
          exact hb e k bars hk
        have hstep : fetchStep cfg ⟨some e, fl, cp, Phase.atRequest, tr⟩ =
            ⟨some e, fl, cp, Phase.gotBars bars, Ev.request (some e) :: tr⟩ := by
          simp [fetchStep, hr, hemp']
        rw [hstep]
        simp only [reqInv, reqTimes_request_some, reqNoneFree_request_some]
        exact ⟨hP0, fun hh => absurd hh (List.cons_ne_nil _ _), fun _ => hLast, hPw, hLe,
          e, rfl, rfl, hbne, hbb⟩
  | gotBars bars =>
    simp only [reqInv] at h
    obtain ⟨hP0, hP1, hP2, hP3, hP4, e, he, hhead, hbne, hbb⟩ := h
    subst he
    have hne : reqTimes tr ≠ [] := by
      intro hh
      rw [hh] at hhead
      cases hhead
    by_cases hemp : (bars.filter (fun b => decide (cfg.startDate ≤ b.date))).isEmpty
    · have hstep : fetchStep cfg ⟨some e, fl, cp, Phase.gotBars bars, tr⟩ =
          ⟨some e, fl, cp, Phase.done, tr⟩ := by
        simp [fetchStep, hemp]
      rw [hstep]
      simp only [reqInv]
      exact ⟨hP0, fun hh => absurd hh hne, hP2, hP3, hP4, trivial⟩
    · have hemp' : (bars.filter (fun b => decide (cfg.startDate ≤ b.date))).isEmpty = false := by
        simpa using hemp
      have hkne : bars.filter (fun b => decide (cfg.startDate ≤ b.date)) ≠ [] := by
        simpa [List.isEmpty_iff] using hemp
      have hstep : fetchStep cfg ⟨some e, fl, cp, Phase.gotBars bars, tr⟩ =
          ⟨some e, fl, cp,
            Phase.filtered (bars.filter (fun b => decide (cfg.startDate ≤ b.date))), tr⟩ := by
        simp [fetchStep, hemp']
      rw [hstep]
      simp only [reqInv]
      refine ⟨hP0, fun hh => absurd hh hne, hP2, hP3, hP4, e, rfl, hhead, hkne, ?_⟩
      intro b hbmem
      exact hbb b (List.mem_of_mem_filter hbmem)
  | filtered bars =>
    simp only [reqInv] at h
    obtain ⟨hP0, hP1, hP2, hP3, hP4, e, he, hhead, hbne, hbb⟩ := h
    subst he
    have hne : reqTimes tr ≠ [] := by
      intro hh
      rw [hh] at hhead
      cases hhead
    have hstep : fetchStep cfg ⟨some e, fl, cp, Phase.filtered bars, tr⟩ =
        ⟨some e, fl ++ bars, cp, Phase.appended bars, Ev.append bars :: tr⟩ := by
      simp [fetchStep]
    rw [hstep]
    simp only [reqInv, reqTimes_append, reqNoneFree_append]
    exact ⟨hP0, fun hh => absurd hh hne, hP2, hP3, hP4, e, rfl, hhead, hbne, hbb⟩
  | appended bars =>
    simp only [reqInv] at h
    obtain ⟨hP0, hP1, hP2, hP3, hP4, e, he, hhead, hbne, hbb⟩ := h
    subst he
    have hne : reqTimes tr ≠ [] := by
      intro hh
      rw [hh] at hhead
      cases hhead
    have hstep : fetchStep cfg ⟨some e, fl, cp, Phase.appended bars, tr⟩ =
        ⟨some e, fl, cp, Phase.slept bars, Ev.sleep :: tr⟩ := by
      simp [fetchStep]
    rw [hstep]
    simp only [reqInv, reqTimes_sleep, reqNoneFree_sleep]
    exact ⟨hP0, fun hh => absurd hh hne, hP2, hP3, hP4, e, rfl, hhead, hbne, hbb⟩
  | slept bars =>
    simp only [reqInv] at h
    obtain ⟨hP0, hP1, hP2, hP3, hP4, e, he, hhead, hbne, hbb⟩ := h
    subst he
    have hne : reqTimes tr ≠ [] := by
      intro hh
      rw [hh] at hhead
      cases hhead
    have hminLe : minDate bars ≤ e := minDate_le_bound bars e hbne hbb
    have hlt : ∀ x ∈ reqTimes tr, minDate bars - 60 < x := by
      intro x hx
      rcases hE : reqTimes tr with _ | ⟨u, us⟩
      · rw [hE] at hx; cases hx
      · rw [hE] at hx hhead hP3
        have hu : u = e := by simpa using hhead
        rcases List.mem_cons.mp hx with rfl | hx'
        · rw [hu]; omega
        · have hux := (List.pairwise_cons.mp hP3).1 x hx'
          rw [hu] at hux
          omega
    by_cases hm : minDate bars ≤ cfg.startDate
    · have hstep : fetchStep cfg ⟨some e, fl, cp, Phase.slept bars, tr⟩ =
          ⟨some (minDate bars - 60), fl, some (minDate bars - 60), Phase.done,
            Ev.persist (minDate bars - 60) :: tr⟩ := by
        simp [fetchStep, hm]
      rw [hstep]
      simp only [reqInv, reqTimes_persist, reqNoneFree_persist]
      exact ⟨hP0, fun hh => absurd hh hne, hP2, hP3, hP4, trivial⟩
    · have hstep : fetchStep cfg ⟨some e, fl, cp, Phase.slept bars, tr⟩ =
          ⟨some (minDate bars - 60), fl, some (minDate bars - 60), Phase.atRequest,
            Ev.persist (minDate bars - 60) :: tr⟩ := by
        simp [fetchStep, hm]
      rw [hstep]
      simp only [reqInv, reqTimes_persist, reqNoneFree_persist]
      exact ⟨hP0, fun hh => absurd hh hne, hP2, hP3, hP4,
        minDate bars - 60, rfl, fun hh => absurd hh hne, hlt⟩
  | done => exact h
  | failed => exact h

theorem reqInv_init (c0 : Int) (f0 : List Row) (cp0 : Option Int) :
    reqInv c0 (initState (some c0) f0 cp0) := by
  refine ⟨rfl, fun _ => ⟨rfl, rfl⟩, fun hh => absurd rfl hh, List.Pairwise.nil,
    fun x hx => absurd hx (List.not_mem_nil x), c0, rfl, fun _ => rfl,
    fun x hx => absurd hx (List.not_mem_nil x)⟩

theorem reqInv_run (cfg : FetchCfg) (hb : ApiBounded cfg) (c0 : Int) (f0 : List Row)
    (cp0 : Option Int) (n : Nat) :
    reqInv c0 (fetchRun cfg (initState (some c0) f0 cp0) n) := by
  induction n with
  | zero => exact reqInv_init c0 f0 cp0
  | succ m ih => exact reqInv_step cfg hb c0 _ ih

/-- Claim C4 (confirmed): resuming from a stored cursor c0, provided every
page the API answers for a request ending at e holds only bars dated at or
before e, the fetch loop never issues a page request with an unset end time,
every issued end time is at most c0, the end times strictly decrease from
each request to the next (in the most-recent-first trace they are pairwise
increasing), and the chronologically first request used exactly c0. -/
theorem c4_resume_monotone (cfg : FetchCfg) (c0 : Int) (f0 : List Row)
    (cp0 : Option Int) (hb : ApiBounded cfg) (n : Nat) :
    reqNoneFree (fetchRun cfg (initState (some c0) f0 cp0) n).trace = true ∧
    (∀ x ∈ reqTimes (fetchRun cfg (initState (some c0) f0 cp0) n).trace, x ≤ c0) ∧
    List.Pairwise (fun x y => x < y)
      (reqTimes (fetchRun cfg (initState (some c0) f0 cp0) n).trace) ∧
    (reqTimes (fetchRun cfg (initState (some c0) f0 cp0) n).trace ≠ [] →
      (reqTimes (fetchRun cfg (initState (some c0) f0 cp0) n).trace).getLast? =
        some c0) := by
  obtain ⟨hP0, hP1, hP2, hP3, hP4, _⟩ := reqInv_run cfg hb c0 f0 cp0 n
  exact ⟨hP0, hP4, hP3, hP2⟩

theorem emptyCfg_bounded : ApiBounded emptyCfg := by
  intro e k bars h b hbm
  have hbe : bars = [] := (Option.some.inj h).symm
  rw [hbe] at hbm
  cases hbm

/-- Witness for c4_resume_monotone: a resumed run against the all-empty API
makes exactly one request, at the stored cursor 900. -/
theorem c4_resume_monotone_witness :
    ApiBounded emptyCfg ∧
    (reqNoneFree (fetchRun emptyCfg (initState (some 900) [] none) 2).trace = true ∧
     (∀ x ∈ reqTimes (fetchRun emptyCfg (initState (some 900) [] none) 2).trace,
        x ≤ 900) ∧
     List.Pairwise (fun x y => x < y)
       (reqTimes (fetchRun emptyCfg (initState (some 900) [] none) 2).trace) ∧
     (reqTimes (fetchRun emptyCfg (initState (some 900) [] none) 2).trace ≠ [] →
       (reqTimes (fetchRun emptyCfg (initState (some 900) [] none) 2).trace).getLast? =
         some 900)) :=
  ⟨emptyCfg_bounded, c4_resume_monotone emptyCfg 900 [] none emptyCfg_bounded 2⟩

/-! ## The checkpoint invariant (claim C2) -/

theorem ckInv_step (cfg : FetchCfg) (hb : ApiBounded cfg) (s : FetchState)
    (h : ckInv s) : ckInv (fetchStep cfg s) := by
  obtain ⟨e0, fl, cp, ph, tr⟩ := s
  cases ph with
  | atRequest =>
    simp only [ckInv] at h
    cases hr : (retryRun (cfg.attempts e0)).result with
    | none =>
      have hstep : fetchStep cfg ⟨e0, fl, cp, Phase.atRequest, tr⟩ =
          ⟨e0, fl, cp, Phase.failed, Ev.request e0 :: tr⟩ := by
        simp [fetchStep, hr]
      rw [hstep]
      exact h
    | some bars =>
      by_cases hemp : bars.isEmpty
      · have hstep : fetchStep cfg ⟨e0, fl, cp, Phase.atRequest, tr⟩ =
            ⟨e0, fl, cp, Phase.done, Ev.request e0 :: tr⟩ := by
          simp [fetchStep, hr, hemp]
        rw [hstep]
        exact h
      · have hemp' : bars.isEmpty = false := by simpa using hemp
        have hbne : bars ≠ [] := by simpa [List.isEmpty_iff] using hemp
        have hstep : fetchStep cfg ⟨e0, fl, cp, Phase.atRequest, tr⟩ =
            ⟨e0, fl, cp, Phase.gotBars bars, Ev.request e0 :: tr⟩ := by
          simp [fetchStep, hr, hemp']
        rw [hstep]
        refine ⟨h, hbne, ?_⟩
        intro e he b hbm
        have he' : e0 = some e := he
        rcases retryRun_some_ex _ bars (by rw [he'] at hr; exact hr) with ⟨k, hk⟩
        exact hb e k bars hk b hbm
  | gotBars bars =>
    simp only [ckInv] at h
    obtain ⟨hbase, hbne, hbound⟩ := h
    by_cases hemp : (bars.filter (fun b => decide (cfg.startDate ≤ b.date))).isEmpty
    · have hstep : fetchStep cfg ⟨e0, fl, cp, Phase.gotBars bars, tr⟩ =
          ⟨e0, fl, cp, Phase.done, tr⟩ := by
        simp [fetchStep, hemp]
      rw [hstep]
      exact hbase
    · have hemp' : (bars.filter (fun b => decide (cfg.startDate ≤ b.date))).isEmpty = false := by
        simpa using hemp
      have hkne : bars.filter (fun b => decide (cfg.startDate ≤ b.date)) ≠ [] := by
        simpa [List.isEmpty_iff] using hemp
      have hstep : fetchStep cfg ⟨e0, fl, cp, Phase.gotBars bars, tr⟩ =
          ⟨e0, fl, cp,
            Phase.filtered (bars.filter (fun b => decide (cfg.startDate ≤ b.date))), tr⟩ := by
        simp [fetchStep, hemp']
      rw [hstep]
      refine ⟨hbase, hkne, ?_⟩
      intro e he b hbm
      exact hbound e he b (List.mem_of_mem_filter hbm)
  | filtered bars =>
    simp only [ckInv] at h
    obtain ⟨⟨hbase1, hbase2⟩, hbne, hbound⟩ := h
    have hstep : fetchStep cfg ⟨e0, fl, cp, Phase.filtered bars, tr⟩ =
        ⟨e0, fl ++ bars, cp, Phase.appended bars, Ev.append bars :: tr⟩ := by
      simp [fetchStep]
    rw [hstep]
    refine ⟨hbne, by simp [hbne], ?_⟩
    show minDate bars - 60 ≤ minDate (fl ++ bars)
    by_cases hfl : fl = []
    · subst hfl
      rw [List.nil_append]
      omega
    · rw [minDate_append fl bars hfl hbne]
      cases hcp : cp with
      | none => exact absurd (hbase2 hcp) hfl
      | some c =>
        obtain ⟨he, hle⟩ := hbase1 c hcp
        have hmle : minDate bars ≤ c := by
          apply minDate_le_bound bars c hbne
          intro b hbm
          exact hbound c he b hbm
        have hflc : c ≤ minDate fl := hle hfl
        have h1 : minDate bars - 60 ≤ minDate fl := by omega
        have h2 : minDate bars - 60 ≤ minDate bars := by omega
        exact le_min h1 h2
  | appended bars =>
    simp only [ckInv] at h
    obtain ⟨hbne, hfne, hle⟩ := h
    have hstep : fetchStep cfg ⟨e0, fl, cp, Phase.appended bars, tr⟩ =
        ⟨e0, fl, cp, Phase.slept bars, Ev.sleep :: tr⟩ := by
      simp [fetchStep]
    rw [hstep]
    exact ⟨hbne, hfne, hle⟩
  | slept bars =>
    simp only [ckInv] at h
    obtain ⟨hbne, hfne, hle⟩ := h
    by_cases hm : minDate bars ≤ cfg.startDate
    · have hstep : fetchStep cfg ⟨e0, fl, cp, Phase.slept bars, tr⟩ =
          ⟨some (minDate bars - 60), fl, some (minDate bars - 60), Phase.done,
            Ev.persist (minDate bars - 60) :: tr⟩ := by
        simp [fetchStep, hm]
      rw [hstep]
      refine ⟨?_, ?_⟩
      · intro c hc
        have hc' : minDate bars - 60 = c := Option.some.inj hc
        exact ⟨by rw [hc'], fun _ => by rw [← hc']; exact hle⟩
      · intro hc
        cases hc
    · have hstep : fetchStep cfg ⟨e0, fl, cp, Phase.slept bars, tr⟩ =
          ⟨some (minDate bars - 60), fl, some (minDate bars - 60), Phase.atRequest,
            Ev.persist (minDate bars - 60) :: tr⟩ := by
        simp [fetchStep, hm]
      rw [hstep]
      refine ⟨?_, ?_⟩
      · intro c hc
        have hc' : minDate bars - 60 = c := Option.some.inj hc
        exact ⟨by rw [hc'], fun _ => by rw [← hc']; exact hle⟩
      · intro hc
        cases hc
  | done => exact h
  | failed => exact h

theorem ckInv_run (cfg : FetchCfg) (hb : ApiBounded cfg) (cursor : Option Int)
    (f0 : List Row) (cp0 : Option Int)
    (h1 : ∀ c, cp0 = some c → cursor = some c)
    (h2 : ∀ c, cp0 = some c → f0 ≠ [] → c ≤ minDate f0)
    (h3 : cp0 = none → f0 = []) (n : Nat) :
    ckInv (fetchRun cfg (initState cursor f0 cp0) n) := by
  induction n with
  | zero =>
    refine ⟨?_, h3⟩
    intro c hc
    exact ⟨h1 c hc, h2 c hc⟩
  | succ m ih => exact ckInv_step cfg hb _ ih

/-- Claim C2 (amended and proved): the cursor-below-written-data invariant
holds at the borders of the page iteration (at the top of the loop, at DONE
and at FAILED), for any API answering requests ending at e only with bars
dated at or before e, provided the state left by the previous run satisfied
it: whenever a checkpoint entry is persisted there and the file is
non-empty, the persisted cursor is at most the minimum timestamp written.
Inside an iteration, between the CSV append and the checkpoint persist, the
property can fail (see the counterexample), so it does not hold at every
point of execution as claimed. -/
theorem c2_checkpoint_inv_amended (cfg : FetchCfg) (cursor : Option Int)
    (f0 : List Row) (cp0 : Option Int) (hb : ApiBounded cfg)
    (h1 : ∀ c, cp0 = some c → cursor = some c)
    (h2 : ∀ c, cp0 = some c → f0 ≠ [] → c ≤ minDate f0)
    (h3 : cp0 = none → f0 = []) (n : Nat) (c : Int)
    (hph : (fetchRun cfg (initState cursor f0 cp0) n).phase = Phase.atRequest ∨
           (fetchRun cfg (initState cursor f0 cp0) n).phase = Phase.done ∨
           (fetchRun cfg (initState cursor f0 cp0) n).phase = Phase.failed)
    (hcp : (fetchRun cfg (initState cursor f0 cp0) n).cp = some c)
    (hfile : (fetchRun cfg (initState cursor f0 cp0) n).file ≠ []) :
    c ≤ minDate (fetchRun cfg (initState cursor f0 cp0) n).file := by
  have hinv := ckInv_run cfg hb cursor f0 cp0 h1 h2 h3 n
  rcases hph with hph | hph | hph <;>
    · unfold ckInv at hinv
      rw [hph] at hinv
      exact (hinv.1 c hcp).2 hfile

theorem exCfg_bounded : ApiBounded exCfg := by
  intro e k bars h b hbm
  by_cases he : e = 1000
  · subst he
    have hb' : bars = [rowAt 500] := by simpa [exCfg] using h.symm
    rw [hb'] at hbm
    have hb500 : b = rowAt 500 := by simpa using hbm
    rw [hb500]
    decide
  · have hb' : bars = [] := by simpa [exCfg, he] using h.symm
    rw [hb'] at hbm
    cases hbm

/-- Witness for c2_checkpoint_inv_amended at the loop border after the first
page of the two-page run: the persisted cursor 1000 is below the written
minimum 1060. -/
theorem c2_checkpoint_inv_witness :
    ApiBounded exCfg ∧
    (fetchRun exCfg (initState none [] none) 5).phase = Phase.atRequest ∧
    (fetchRun exCfg (initState none [] none) 5).cp = some 1000 ∧
    (fetchRun exCfg (initState none [] none) 5).file ≠ [] ∧
    (1000 : Int) ≤ minDate (fetchRun exCfg (initState none [] none) 5).file :=
  ⟨exCfg_bounded, by decide, by decide, by decide,
   c2_checkpoint_inv_amended exCfg none [] none exCfg_bounded
     (fun c hc => by cases hc) (fun c hc => by cases hc) (fun _ => rfl) 5 1000
     (Or.inl (by decide)) (by decide) (by decide)⟩

/-- Claim C2 (counterexample to "at every point of execution"): in the fresh
two-page run, after the second page's bars (minimum timestamp 500) have been
appended to the file but before the persist of that iteration, the persisted
checkpoint still holds 1000, which exceeds the file minimum 500. -/
theorem c2_checkpoint_inv_counterexample :
    ¬ (∀ (n : Nat) (c : Int),
        (fetchRun exCfg (initState none [] none) n).cp = some c →
        (fetchRun exCfg (initState none [] none) n).file ≠ [] →
        c ≤ minDate (fetchRun exCfg (initState none [] none) n).file) := by
  intro h
  have h8 := h 8 1000 (by decide) (by decide)
  exact absurd h8 (by decide)
